import Mathlib

/-!
Verification of the environment-wrapper pipeline of `robosuite_env.py`
(tacto_learn): a chain of dm_env-style wrappers (key filtering, frame
stacking, action repeat, dtype normalization, extended time steps).

Numeric scalars (rewards, discounts, pixel values) are modelled by `ℚ`;
Python `None` by `Option`; ordered dictionaries by association lists;
numpy arrays by shape-plus-lookup records.  Python dictionary mutation
(needed for the aliasing claims) is modelled by an explicit store mapping
references to observation mappings.
-/

namespace RobosuiteEnv

/-- dm_env.StepType: FIRST / MID / LAST. -/
inductive StepType where
  | FIRST
  | MID
  | LAST
deriving DecidableEq, Repr

/-- dm_env.TimeStep: (step_type, reward, discount, observation); reward and
discount may be `None` (e.g. on the FIRST step). -/
structure TimeStep (Obs : Type) where
  step_type : StepType
  reward : Option ℚ
  discount : Option ℚ
  observation : Obs
deriving DecidableEq, Repr

/-- Python truthiness of a number: falsy exactly when it equals 0. -/
def pyTruthy (v : ℚ) : Bool := v ≠ 0

/-- Python `x or d` where `x` is an optional number: `d` when `x` is `None`
or a falsy (zero) number, `x` otherwise.  This is the idiom used at
`robosuite_env.py:242-243` and `robosuite_env.py:265`. -/
def pyOr (x : Option ℚ) (d : ℚ) : ℚ :=
  match x with
  | none => d
  | some v => if pyTruthy v then v else d

/-- ExtendedTimeStep: (step_type, reward, discount, observation, action),
a NamedTuple with the fields in this declaration order.  All Python fields
are annotated `Any`; the Lean model is polymorphic over one value type. -/
structure ExtendedTimeStep (V : Type) where
  step_type : V
  reward : V
  discount : V
  observation : V
  action : V
deriving DecidableEq, Repr

/-- Method `ExtendedTimeStep.__getitem__` with a string key: `getattr(self, attr)`,
restricted to the five tuple fields (`none` models AttributeError). -/
def ExtendedTimeStep.getitemStr (s : ExtendedTimeStep V) (attr : String) :
    Option V :=
  if attr = "step_type" then some s.step_type
  else if attr = "reward" then some s.reward
  else if attr = "discount" then some s.discount
  else if attr = "observation" then some s.observation
  else if attr = "action" then some s.action
  else none

/-- Method `ExtendedTimeStep.__getitem__` with an integer: `tuple.__getitem__`,
positional access in declaration order, Python negative indices counting
from the end, `none` modelling IndexError. -/
def ExtendedTimeStep.getitemInt (s : ExtendedTimeStep V) (i : Int) :
    Option V :=
  let j : Int := if i < 0 then i + 5 else i
  if j = 0 then some s.step_type
  else if j = 1 then some s.reward
  else if j = 2 then some s.discount
  else if j = 3 then some s.observation
  else if j = 4 then some s.action
  else none

/-- Python dict lookup `d[k]` on an ordered mapping modelled as an
association list (`none` models KeyError). -/
def dictGet (d : List (String × V)) (k : String) : Option V :=
  match d with
  | [] => none
  | (k2, v) :: rest => if k2 = k then some v else dictGet rest k

/-- Ordered-dict assignment `d[k] = v`: replace in place when the key is
present, append at the end otherwise. -/
def odSet (d : List (String × V)) (k : String) (v : V) : List (String × V) :=
  match d with
  | [] => [(k, v)]
  | (k2, v2) :: rest =>
      if k2 = k then (k, v) :: rest else (k2, v2) :: odSet rest k v

/-- The loop of `DMEWrapper._extract_obs` (robosuite_env.py:72-79):
`for key in self.keys: new_obs_dict[key] = obs_dict[key]`, starting from
the empty ordered dict `acc`; `none` models the KeyError raised when a
retained key is missing. -/
def extractObsGo (d : List (String × V)) (keys : List String)
    (acc : List (String × V)) : Option (List (String × V)) :=
  match keys with
  | [] => some acc
  | k :: ks =>
    match dictGet d k with
    | none => none
    | some v => extractObsGo d ks (odSet acc k v)

/-- Method `DMEWrapper._extract_obs`: filter the raw observation dictionary down
to the retained keys, in the configured order. -/
def extractObs (keys : List String) (d : List (String × V)) :
    Option (List (String × V)) :=
  extractObsGo d keys []

/-- What the robosuite simulator's `step` returns (observation dictionary,
reward, done flag; the info dictionary is unused by the wrapper). -/
structure SimStepResult (V : Type) where
  obs : List (String × V)
  reward : ℚ
  done : Bool

/-- Method `DMEWrapper.step` (robosuite_env.py:101-110) applied to the simulator
result for the forwarded action: filtered observation, LAST iff done,
reward from the simulator, discount fixed to 1.0. -/
def dmeStep (keys : List String) (res : SimStepResult V) :
    Option (TimeStep (List (String × V))) :=
  (extractObs keys res.obs).map fun ob =>
    { step_type := if res.done then StepType.LAST else StepType.MID
      reward := some res.reward
      discount := some 1
      observation := ob }

/-- The reward/discount/action carried by the records that
`ExtendedTimeStepWrapper` emits (observation is passed through opaquely). -/
structure AugStep (Obs Act : Type) where
  step_type : StepType
  reward : ℚ
  discount : ℚ
  observation : Obs
  action : Act
deriving DecidableEq, Repr

/-- Method `ExtendedTimeStepWrapper._augment_time_step` (robosuite_env.py:235-243):
missing action replaced by the zero action, reward set to
`time_step.reward or 0.0`, discount to `time_step.discount or 1.0`. -/
def augmentTimeStep (ts : TimeStep Obs) (action : Option Act)
    (zeroAction : Act) : AugStep Obs Act :=
  { observation := ts.observation
    step_type := ts.step_type
    action := action.getD zeroAction
    reward := pyOr ts.reward 0
    discount := pyOr ts.discount 1 }

/-- Outcome of the `for i in range(self._num_repeats)` loop of
`ActionRepeatWrapper.step` (robosuite_env.py:263-268): either the
accumulated reward and discount together with the last assigned inner
time step (`none` when the loop body never ran) and the number of inner
`step` calls made, or `err` for the TypeError raised by
`discount *= time_step.discount` when the inner discount is `None`. -/
inductive LoopOut (Obs : Type) where
  | ok (reward discount : ℚ) (ts : Option (TimeStep Obs)) (calls : ℕ)
  | err
deriving DecidableEq, Repr

/-- The loop of `ActionRepeatWrapper.step`.  The wrapped environment is
modelled as the stream `env` of inner time steps, indexed by call order;
recursion shifts the stream.  `fuel` is the number of remaining loop
iterations, `r`/`d` the running reward and discount, `c` the inner calls
made so far, `ts0` the last assigned `time_step`. -/
def arLoop (env : ℕ → TimeStep Obs) (fuel : ℕ) (r d : ℚ) (c : ℕ)
    (ts0 : Option (TimeStep Obs)) : LoopOut Obs :=
  match fuel with
  | 0 => .ok r d ts0 c
  | fuel' + 1 =>
    let ts := env 0
    let r' := r + pyOr ts.reward 0 * d
    match ts.discount with
    | none => .err
    | some γ =>
      if ts.step_type = StepType.LAST then .ok r' (d * γ) (some ts) (c + 1)
      else arLoop (fun j => env (j + 1)) fuel' r' (d * γ) (c + 1) (some ts)

/-- Method `ActionRepeatWrapper.step` with `num_repeats = K`: run the loop, then
`time_step._replace(reward=reward, discount=discount)`.  The result is
`none` when the call raises (NameError when the loop never assigned
`time_step`, i.e. `K = 0`, or the TypeError inside the loop); otherwise
the returned step is paired with the number of inner `step` calls. -/
def arStep (env : ℕ → TimeStep Obs) (K : ℕ) : Option (TimeStep Obs × ℕ) :=
  match arLoop env K 0 1 0 none with
  | .err => none
  | .ok r d ts calls =>
      ts.map fun t => ({ t with reward := some r, discount := some d }, calls)

/-- A 3-dimensional numpy array: shape plus element lookup (out-of-range
lookups are junk values; array equality `aeq` ignores them). -/
structure NpArray3 where
  d0 : ℕ
  d1 : ℕ
  d2 : ℕ
  val : ℕ → ℕ → ℕ → ℚ

/-- A 4-dimensional numpy array, as returned by simulators that prepend a
batch dimension to the image. -/
structure NpArray4 where
  d0 : ℕ
  d1 : ℕ
  d2 : ℕ
  d3 : ℕ
  val : ℕ → ℕ → ℕ → ℕ → ℚ

/-- An image observation as handed to `FrameStackWrapper`: either a
3-dimensional height×width×channel array or a batched 4-dimensional one. -/
inductive ObsImage where
  | arr3 (a : NpArray3)
  | arr4 (a : NpArray4)

/-- numpy array equality on 3-dimensional arrays: same shape and same
elements at every in-range index. -/
def aeq (a b : NpArray3) : Prop :=
  a.d0 = b.d0 ∧ a.d1 = b.d1 ∧ a.d2 = b.d2 ∧
  ∀ c h w, c < a.d0 → h < a.d1 → w < a.d2 → a.val c h w = b.val c h w

/-- The `if len(image.shape) == 4: image = image[0]` batch strip of
`FrameStackWrapper._extract_image` (robosuite_env.py:191-193). -/
def stripBatch : ObsImage → NpArray3
  | .arr3 a => a
  | .arr4 a => ⟨a.d1, a.d2, a.d3, fun i j k => a.val 0 i j k⟩

/-- numpy `image.transpose(2, 0, 1)`: spatial×channel to channel-first. -/
def transpose201 (a : NpArray3) : NpArray3 :=
  ⟨a.d2, a.d0, a.d1, fun c h w => a.val h w c⟩

/-- Method `FrameStackWrapper._extract_image` at the value level: strip a batch
dimension if present, then transpose to channel-first
(robosuite_env.py:186-194; the trailing `.copy()` matters only for
aliasing and is modelled separately by the heap model). -/
def extractImage (img : ObsImage) : NpArray3 :=
  transpose201 (stripBatch img)

/-- numpy `np.concatenate([a, b], axis=0)` on two 3-dimensional arrays. -/
def concat2 (a b : NpArray3) : NpArray3 :=
  ⟨a.d0 + b.d0, a.d1, a.d2,
    fun c h w => if c < a.d0 then a.val c h w else b.val (c - a.d0) h w⟩

/-- numpy `np.concatenate(frames, axis=0)` over a list of frames, as in
`FrameStackWrapper._transform_observation` (robosuite_env.py:180). -/
def concatList : List NpArray3 → NpArray3
  | [] => ⟨0, 0, 0, fun _ _ _ => 0⟩
  | f :: rest => concat2 f (concatList rest)

/-- The channel slice `a[lo : lo + len]` along axis 0, used to express the
constituent frames of a stacked image. -/
def chanSlice (a : NpArray3) (lo len : ℕ) : NpArray3 :=
  ⟨len, a.d1, a.d2, fun c h w => a.val (lo + c) h w⟩

/-- Python `deque.append` with `maxlen = N`: append on the right, evicting from
the left when the buffer exceeds capacity. -/
def dequeAppend (N : ℕ) (b : List α) (x : α) : List α :=
  (b ++ [x]).drop (b.length + 1 - N)

/-- Loop `for _ in range(k): frames.append(x)` on a deque with `maxlen = N`. -/
def appendCopies (N : ℕ) (b : List α) (x : α) : ℕ → List α
  | 0 => b
  | k + 1 => dequeAppend N (appendCopies N b x k) x

/-- The frame buffer after `FrameStackWrapper.reset`
(robosuite_env.py:196-201): extract the initial image once and append it
`num_frames` times to the (not cleared) buffer `b`. -/
def fsReset (N : ℕ) (b : List NpArray3) (raw : ObsImage) : List NpArray3 :=
  appendCopies N b (extractImage raw) N

/-- The frame buffer after `FrameStackWrapper.step`
(robosuite_env.py:203-207): extract the new frame and push it. -/
def fsStep (N : ℕ) (b : List NpArray3) (raw : ObsImage) : List NpArray3 :=
  dequeAppend N b (extractImage raw)

/-- The frame buffer after a sequence of `step` calls whose wrapped
environment returned the images `raws`, in order. -/
def fsSteps (N : ℕ) (b : List NpArray3) (raws : List ObsImage) :
    List NpArray3 :=
  raws.foldl (fun acc raw => fsStep N acc raw) b

/-- numpy dtypes occurring in the pipeline. -/
inductive PyDType where
  | uint8
  | float32
  | float64
deriving DecidableEq, Repr

/-- A numpy array as seen by the dtype-normalizing transforms: dtype plus
an abstract payload.  `astype` produces a new array with the new dtype. -/
structure PyArray where
  dtype : PyDType
  data : ℚ
deriving DecidableEq, Repr

/-- numpy `v.astype(np.float32)`. -/
def astypeF32 (a : PyArray) : PyArray := ⟨.float32, a.data⟩

/-- A store of observation mappings, indexed by reference: Python
dictionaries are mutable objects, so a Step holds a reference to its
mapping rather than the mapping itself. -/
def ObsStore : Type := ℕ → List (String × PyArray)

/-- A dm_env TimeStep whose observation is a reference into an
`ObsStore`. -/
structure HStep where
  step_type : StepType
  reward : Option ℚ
  discount : Option ℚ
  obsRef : ℕ
deriving DecidableEq, Repr

/-- Method `ObsDTypeWrapper._transform_observation` (robosuite_env.py:321-328):
`ob = time_step.observation` aliases the mapping at `time_step.obsRef`;
the loop `ob[k] = v.astype(np.float32)` rewrites every entry of that same
mapping; `time_step._replace(observation=ob)` builds a new Step holding
the same reference, so the returned step is the input step with its
mapping updated in the store. -/
def obsDTypeTransform (store : ObsStore) (ts : HStep) : ObsStore × HStep :=
  (fun r => if r = ts.obsRef
    then (store ts.obsRef).map fun kv => (kv.1, astypeF32 kv.2)
    else store r,
   ts)

/-- Method `FrameStackWrapper._transform_observation` (robosuite_env.py:172-184)
at the store level: in the same mapping object, the image entry is
overwritten with the stacked array and every other entry is cast to
float32. -/
def fsTransformObs (imageKey : Option String) (stacked : PyArray)
    (store : ObsStore) (ts : HStep) : ObsStore × HStep :=
  (fun r => if r = ts.obsRef
    then (store ts.obsRef).map fun kv =>
      if some kv.1 = imageKey then (kv.1, stacked) else (kv.1, astypeF32 kv.2)
    else store r,
   ts)

/-- A heap of image arrays with an allocation counter: `mem` maps each
reference to its current contents, `next` is the next fresh reference. -/
structure AHeap where
  next : ℕ
  mem : ℕ → ObsImage

/-- Allocate a fresh array holding `a`, returning the new heap and the
fresh reference (this models numpy `.copy()`). -/
def allocCopy (h : AHeap) (a : ObsImage) : AHeap × ℕ :=
  (⟨h.next + 1, fun r => if r = h.next then a else h.mem r⟩, h.next)

/-- Method `FrameStackWrapper._extract_image` (robosuite_env.py:186-194) at the
heap level: read the wrapped step's image array, strip the batch
dimension and transpose, then `.copy()` the result into a freshly
allocated array. -/
def extractImageHeap (h : AHeap) (imgRef : ℕ) : AHeap × ℕ :=
  allocCopy h (.arr3 (extractImage (h.mem imgRef)))

/-- A `reset` or `step` call on `FrameStackWrapper`, tagged with the
reference of the image array inside the observation that the wrapped
environment returned for that call. -/
inductive FSOp where
  | reset (imgRef : ℕ)
  | step (imgRef : ℕ)
deriving DecidableEq, Repr

def FSOp.imgRef : FSOp → ℕ
  | .reset r => r
  | .step r => r

/-- One `FrameStackWrapper` call at the heap level: extract-and-copy the
image, then push the copy's reference (N times on reset, once on step). -/
def fsOpHeap (N : ℕ) (st : AHeap × List ℕ) (op : FSOp) : AHeap × List ℕ :=
  match op with
  | .reset r =>
      ((extractImageHeap st.1 r).1,
        appendCopies N st.2 (extractImageHeap st.1 r).2 N)
  | .step r =>
      ((extractImageHeap st.1 r).1,
        dequeAppend N st.2 (extractImageHeap st.1 r).2)

/-- A sequence of `reset`/`step` calls starting from heap `h` and frame
buffer `fs` (the buffer holds references). -/
def fsRunHeap (N : ℕ) (st : AHeap × List ℕ) : List FSOp → AHeap × List ℕ
  | [] => st
  | op :: ops => fsRunHeap N (fsOpHeap N st op) ops

/-- An in-place write to the array at reference `r` (what the wrapped
environment does to its own observation buffers). -/
def memWrite (h : AHeap) (r : ℕ) (v : ObsImage) : AHeap :=
  ⟨h.next, fun r2 => if r2 = r then v else h.mem r2⟩

end RobosuiteEnv

namespace RobosuiteEnv

/-- C1 counterexample: a present discount of 0.0 is not preserved by
`_augment_time_step`; `time_step.discount or 1.0` maps it to 1.0. -/
theorem augment_discount_zero_cex :
    (augmentTimeStep (⟨StepType.MID, some 5, some 0, ()⟩ : TimeStep Unit)
      (none : Option Unit) ()).discount = 1 ∧
    ((1 : ℚ) ≠ 0) := by
  constructor
  · decide
  · norm_num

/-- C1 (amended): the augmented reward is 0.0 when the inner reward is
absent and the inner reward otherwise; the augmented discount is 1.0 when
the inner discount is absent or equal to 0.0, and the inner discount
otherwise. -/
theorem augment_reward_discount (ts : TimeStep Obs) (action : Option Act)
    (z : Act) :
    (ts.reward = none → (augmentTimeStep ts action z).reward = 0) ∧
    (∀ r, ts.reward = some r → (augmentTimeStep ts action z).reward = r) ∧
    (ts.discount = none → (augmentTimeStep ts action z).discount = 1) ∧
    (ts.discount = some 0 → (augmentTimeStep ts action z).discount = 1) ∧
    (∀ d, ts.discount = some d → d ≠ 0 →
      (augmentTimeStep ts action z).discount = d) := by
  refine ⟨?_, ?_, ?_, ?_, ?_⟩
  · intro h; simp [augmentTimeStep, pyOr, h]
  · intro r h
    by_cases hr : r = 0 <;> simp [augmentTimeStep, pyOr, pyTruthy, h, hr]
  · intro h; simp [augmentTimeStep, pyOr, h]
  · intro h; simp [augmentTimeStep, pyOr, pyTruthy, h]
  · intro d h hd; simp [augmentTimeStep, pyOr, pyTruthy, h, hd]

/-- C1 witness: the amended statement evaluated on concrete steps. -/
theorem augment_reward_discount_w :
    (augmentTimeStep (⟨StepType.MID, some 5, some (3/4), ()⟩ : TimeStep Unit)
      (none : Option Unit) ()).reward = 5 ∧
    (augmentTimeStep (⟨StepType.MID, some 5, some (3/4), ()⟩ : TimeStep Unit)
      (none : Option Unit) ()).discount = 3/4 ∧
    (augmentTimeStep (⟨StepType.FIRST, none, none, ()⟩ : TimeStep Unit)
      (none : Option Unit) ()).reward = 0 ∧
    (augmentTimeStep (⟨StepType.FIRST, none, none, ()⟩ : TimeStep Unit)
      (none : Option Unit) ()).discount = 1 := by
  refine ⟨?_, ?_, ?_, ?_⟩
  · exact (augment_reward_discount ⟨StepType.MID, some 5, some (3/4), ()⟩
      none ()).2.1 5 rfl
  · exact (augment_reward_discount ⟨StepType.MID, some 5, some (3/4), ()⟩
      none ()).2.2.2.2 (3/4) rfl (by norm_num)
  · exact (augment_reward_discount ⟨StepType.FIRST, none, none, ()⟩
      none ()).1 rfl
  · exact (augment_reward_discount ⟨StepType.FIRST, none, none, ()⟩
      none ()).2.2.1 rfl

/-- C9: `__getitem__` with a string key returns the named field, and
`__getitem__` with the positional index returns the same value, in the
field order (step_type, reward, discount, observation, action). -/
theorem getitem_str_int_agree (s : ExtendedTimeStep V) :
    s.getitemStr ("step_type") = some s.step_type ∧
      s.getitemInt 0 = some s.step_type ∧
    s.getitemStr ("reward") = some s.reward ∧
      s.getitemInt 1 = some s.reward ∧
    s.getitemStr ("discount") = some s.discount ∧
      s.getitemInt 2 = some s.discount ∧
    s.getitemStr ("observation") = some s.observation ∧
      s.getitemInt 3 = some s.observation ∧
    s.getitemStr ("action") = some s.action ∧
      s.getitemInt 4 = some s.action := by
  refine ⟨rfl, rfl, rfl, rfl, rfl, rfl, rfl, rfl, rfl, rfl⟩

/-- C8: with `num_repeats = 0` the loop body never runs, `time_step` is
never assigned, and `step` fails instead of returning a Step. -/
theorem arStep_zero_fails (env : ℕ → TimeStep Obs) : arStep env 0 = none :=
  rfl

theorem pyOr_some_zero (v : ℚ) : pyOr (some v) 0 = v := by
  by_cases h : v = 0 <;> simp [pyOr, pyTruthy, h]

theorem arLoop_zero (env : ℕ → TimeStep Obs) (r d : ℚ) (c : ℕ) ts0 :
    arLoop env 0 r d c ts0 = .ok r d ts0 c := rfl

theorem arLoop_succ_some (env : ℕ → TimeStep Obs) (fuel : ℕ) (r d : ℚ)
    (c : ℕ) (ts0 : Option (TimeStep Obs)) (γ : ℚ)
    (hd : (env 0).discount = some γ) :
    arLoop env (fuel + 1) r d c ts0 =
      if (env 0).step_type = StepType.LAST then
        .ok (r + pyOr (env 0).reward 0 * d) (d * γ) (some (env 0)) (c + 1)
      else
        arLoop (fun j => env (j + 1)) fuel (r + pyOr (env 0).reward 0 * d)
          (d * γ) (c + 1) (some (env 0)) := by
  rw [arLoop, hd]

/-- Accumulation over a block of constant inner steps (no early LAST):
the loop returns the geometric reward sum and the compounded discount. -/
theorem arLoop_const (rr γ : ℚ) (n : ℕ) :
    ∀ (env : ℕ → TimeStep Obs) (r d : ℚ) (c : ℕ) ts0,
    (∀ j, j < n + 1 → (env j).reward = some rr ∧
      (env j).discount = some γ ∧ (env j).step_type ≠ StepType.LAST) →
    arLoop env (n + 1) r d c ts0 =
      .ok (r + rr * d * ∑ t ∈ Finset.range (n + 1), γ ^ t)
        (d * γ ^ (n + 1)) (some (env n)) (c + (n + 1)) := by
  induction n with
  | zero =>
    intro env r d c ts0 h
    obtain ⟨hr, hd, hl⟩ := h 0 (by omega)
    rw [arLoop_succ_some env 0 r d c ts0 γ hd, if_neg hl, arLoop_zero, hr,
      pyOr_some_zero]
    congr 1
    · rw [Finset.sum_range_one]
      ring
    · ring
  | succ m ih =>
    intro env r d c ts0 h
    obtain ⟨hr, hd, hl⟩ := h 0 (by omega)
    rw [arLoop_succ_some env (m + 1) r d c ts0 γ hd, if_neg hl,
      ih (fun j => env (j + 1)) _ _ _ _ (fun j hj => h (j + 1) (by omega)),
      hr, pyOr_some_zero]
    congr 1
    · conv_rhs => rw [geom_sum_succ]
      ring
    · ring
    · omega

/-- C2: for `K ≥ 1` constant inner steps (reward `rr`, discount `γ`, no
LAST phase), `ActionRepeatWrapper.step` returns the last inner step with
reward `rr · (1 + γ + … + γ^(K−1))` and discount `γ^K`. -/
theorem actionRepeat_const (env : ℕ → TimeStep Obs) (K : ℕ) (rr γ : ℚ)
    (hK : 1 ≤ K)
    (h : ∀ j, j < K → (env j).reward = some rr ∧
      (env j).discount = some γ ∧ (env j).step_type ≠ StepType.LAST) :
    arStep env K =
      some ({ env (K - 1) with
              reward := some (rr * ∑ t ∈ Finset.range K, γ ^ t),
              discount := some (γ ^ K) }, K) := by
  obtain ⟨n, rfl⟩ : ∃ n, K = n + 1 := ⟨K - 1, by omega⟩
  unfold arStep
  rw [arLoop_const rr γ n env 0 1 0 none h]
  simp

/-- C2 witness: two repeats of reward 1 and discount 9/10 accumulate to
reward 19/10 and discount 81/100 (the concrete scenario of the spec). -/
theorem actionRepeat_const_w :
    arStep (fun _ => (⟨StepType.MID, some 1, some (9/10), ()⟩ : TimeStep Unit)) 2 =
      some (⟨StepType.MID, some (19/10), some (81/100), ()⟩, 2) := by
  have h := actionRepeat_const
    (fun _ => (⟨StepType.MID, some 1, some (9/10), ()⟩ : TimeStep Unit)) 2 1 (9/10)
    (by omega) (by intro j hj; refine ⟨rfl, rfl, by simp⟩)
  rw [h]
  norm_num [Finset.sum_range_succ]

/-- Accumulation up to the first LAST-phased inner step at index `p`:
the loop stops there, having made `p + 1` calls. -/
theorem arLoop_last (p : ℕ) :
    ∀ (δ : ℕ → ℚ) (n : ℕ) (env : ℕ → TimeStep Obs) (r d : ℚ) (c : ℕ) ts0,
    p < n →
    (∀ j, j ≤ p → (env j).discount = some (δ j)) →
    (∀ j, j < p → (env j).step_type ≠ StepType.LAST) →
    (env p).step_type = StepType.LAST →
    arLoop env n r d c ts0 =
      .ok (r + ∑ j ∈ Finset.range (p + 1),
            pyOr (env j).reward 0 * (d * ∏ l ∈ Finset.range j, δ l))
        (d * ∏ j ∈ Finset.range (p + 1), δ j)
        (some (env p)) (c + (p + 1)) := by
  induction p with
  | zero =>
    intro δ n env r d c ts0 hpn hδ hnl hl
    obtain ⟨m, rfl⟩ : ∃ m, n = m + 1 := ⟨n - 1, by omega⟩
    rw [arLoop_succ_some env m r d c ts0 (δ 0) (hδ 0 (by omega)), if_pos hl]
    congr 1
    · rw [Finset.sum_range_one, Finset.prod_range_zero]
      ring
    · rw [Finset.prod_range_one]
  | succ p ih =>
    intro δ n env r d c ts0 hpn hδ hnl hl
    obtain ⟨m, rfl⟩ : ∃ m, n = m + 1 := ⟨n - 1, by omega⟩
    have hterm : ∀ j ∈ Finset.range (p + 1),
        pyOr (env (j + 1)).reward 0 *
            (d * ∏ l ∈ Finset.range (j + 1), δ l) =
          pyOr (env (j + 1)).reward 0 *
            (d * δ 0 * ∏ l ∈ Finset.range j, δ (l + 1)) := by
      intro j hj
      rw [Finset.prod_range_succ']
      ring
    have hsum : ∑ j ∈ Finset.range (p + 1 + 1),
        pyOr (env j).reward 0 * (d * ∏ l ∈ Finset.range j, δ l) =
        (∑ j ∈ Finset.range (p + 1), pyOr (env (j + 1)).reward 0 *
          (d * δ 0 * ∏ l ∈ Finset.range j, δ (l + 1))) +
        pyOr (env 0).reward 0 * d := by
      rw [Finset.sum_range_succ'
        (fun j => pyOr (env j).reward 0 * (d * ∏ l ∈ Finset.range j, δ l))
        (p + 1), Finset.sum_congr rfl hterm, Finset.prod_range_zero]
      ring
    rw [arLoop_succ_some env m r d c ts0 (δ 0) (hδ 0 (by omega)),
      if_neg (hnl 0 (by omega)),
      ih (fun l => δ (l + 1)) m (fun j => env (j + 1)) _ _ _ _ (by omega)
        (fun j hj => hδ (j + 1) (by omega))
        (fun j hj => hnl (j + 1) (by omega)) hl]
    congr 1
    · rw [hsum]
      ring
    · conv_rhs => rw [Finset.prod_range_succ']
      ring
    · omega

/-- C3: if the first LAST-phased inner step occurs at 0-based index `p`
with `p < K`, `ActionRepeatWrapper.step` makes exactly `p + 1` inner
calls and returns that LAST step with reward and discount accumulated
over those `p + 1` steps only. -/
theorem actionRepeat_early_term (env : ℕ → TimeStep Obs) (K p : ℕ)
    (δ : ℕ → ℚ) (hpK : p < K)
    (hδ : ∀ j, j ≤ p → (env j).discount = some (δ j))
    (hnl : ∀ j, j < p → (env j).step_type ≠ StepType.LAST)
    (hl : (env p).step_type = StepType.LAST) :
    arStep env K =
      some ({ env p with
              reward := some (∑ j ∈ Finset.range (p + 1),
                pyOr (env j).reward 0 * ∏ l ∈ Finset.range j, δ l),
              discount := some (∏ j ∈ Finset.range (p + 1), δ j) }, p + 1) ∧
    ({ env p with
       reward := some (∑ j ∈ Finset.range (p + 1),
         pyOr (env j).reward 0 * ∏ l ∈ Finset.range j, δ l),
       discount := some (∏ j ∈ Finset.range (p + 1), δ j) } :
      TimeStep Obs).step_type = StepType.LAST := by
  constructor
  · unfold arStep
    rw [arLoop_last p δ K env 0 1 0 none hpK hδ hnl hl]
    simp
  · simpa using hl

/-- C3 witness: a MID step then a LAST step, with repeat count 5: two
inner calls, accumulated reward 3 + 2·2 = 7 and compounded discount 4. -/
theorem actionRepeat_early_term_w :
    arStep
      (fun j => if j = 1 then (⟨StepType.LAST, some 2, some 2, ()⟩ : TimeStep Unit)
                else ⟨StepType.MID, some 3, some 2, ()⟩) 5 =
      some (⟨StepType.LAST, some 7, some 4, ()⟩, 2) := by
  have h := actionRepeat_early_term
    (fun j => if j = 1 then (⟨StepType.LAST, some 2, some 2, ()⟩ : TimeStep Unit)
              else ⟨StepType.MID, some 3, some 2, ()⟩) 5 1
    (fun _ => 2) (by omega)
    (by intro j hj; interval_cases j <;> simp)
    (by intro j hj; interval_cases j; simp)
    (by simp)
  rw [h.1]
  norm_num [Finset.sum_range_succ, Finset.prod_range_succ, pyOr, pyTruthy]

theorem odSet_not_mem (acc : List (String × V)) (k : String) (v : V)
    (h : ∀ p ∈ acc, p.1 ≠ k) : odSet acc k v = acc ++ [(k, v)] := by
  induction acc with
  | nil => rfl
  | cons p rest ih =>
    rw [odSet]
    rw [if_neg (h p (by simp))]
    rw [ih (fun q hq => h q (by simp [hq]))]
    simp

theorem extractObsGo_spec (d : List (String × V)) :
    ∀ (keys : List String) (acc : List (String × V)),
    keys.Nodup →
    (∀ k, k ∈ keys → (dictGet d k).isSome) →
    (∀ p ∈ acc, p.1 ∉ keys) →
    ∃ ob, extractObsGo d keys acc = some ob ∧
      ob.map Prod.fst = acc.map Prod.fst ++ keys ∧
      ∀ p ∈ ob, p ∈ acc ∨ dictGet d p.1 = some p.2 := by
  intro keys
  induction keys with
  | nil =>
    intro acc hnd hsome hdisj
    exact ⟨acc, rfl, by simp, fun p hp => Or.inl hp⟩
  | cons k ks ih =>
    intro acc hnd hsome hdisj
    obtain ⟨v, hv⟩ := Option.isSome_iff_exists.mp (hsome k (by simp))
    have hset : odSet acc k v = acc ++ [(k, v)] :=
      odSet_not_mem acc k v (fun p hp => by
        have := hdisj p hp
        simp only [List.mem_cons] at this
        tauto)
    obtain ⟨ob, h1, h2, h3⟩ := ih (odSet acc k v) (List.nodup_cons.mp hnd).2
      (fun k2 hk2 => hsome k2 (by simp [hk2]))
      (by
        intro p hp
        rw [hset] at hp
        rcases List.mem_append.mp hp with hp2 | hp2
        · have := hdisj p hp2
          simp only [List.mem_cons] at this
          tauto
        · simp only [List.mem_singleton] at hp2
          subst hp2
          exact (List.nodup_cons.mp hnd).1)
    refine ⟨ob, ?_, ?_, ?_⟩
    · rw [extractObsGo, hv]
      exact h1
    · rw [h2, hset]
      simp
    · intro p hp
      rcases h3 p hp with hp2 | hp2
      · rw [hset] at hp2
        rcases List.mem_append.mp hp2 with hp3 | hp3
        · exact Or.inl hp3
        · simp only [List.mem_singleton] at hp3
          subst hp3
          exact Or.inr hv
      · exact Or.inr hp2

/-- C6: `DMEWrapper.step` on the simulator result of the forwarded action
returns a Step whose observation holds exactly the retained keys in the
configured order with the simulator values, phase LAST iff done else MID,
and discount 1.0. -/
theorem dmeStep_spec (keys : List String) (res : SimStepResult V)
    (hnd : keys.Nodup)
    (hsome : ∀ k, k ∈ keys → (dictGet res.obs k).isSome) :
    ∃ ob, dmeStep keys res = some
      { step_type := if res.done then StepType.LAST else StepType.MID
        reward := some res.reward
        discount := some 1
        observation := ob } ∧
      ob.map Prod.fst = keys ∧
      ∀ p ∈ ob, dictGet res.obs p.1 = some p.2 := by
  obtain ⟨ob, h1, h2, h3⟩ :=
    extractObsGo_spec res.obs keys [] hnd hsome (by simp)
  refine ⟨ob, ?_, by simpa using h2, ?_⟩
  · rw [dmeStep]
    rw [show extractObs keys res.obs = some ob from h1]
    rfl
  · intro p hp
    rcases h3 p hp with hp2 | hp2
    · simp at hp2
    · exact hp2

/-- C6 witness: retained keys a, b over a three-entry raw observation with
done = true and reward 5. -/
theorem dmeStep_spec_w :
    (["a", "b"] : List String).Nodup ∧
    (∀ k, k ∈ (["a", "b"] : List String) →
      (dictGet [("b", (2 : ℚ)), ("a", 1), ("c", 3)] k).isSome) ∧
    (∃ ob, dmeStep ["a", "b"]
        (⟨[("b", (2 : ℚ)), ("a", 1), ("c", 3)], 5, true⟩ : SimStepResult ℚ) =
        some { step_type := if true then StepType.LAST else StepType.MID
               reward := some 5
               discount := some 1
               observation := ob } ∧
      ob.map Prod.fst = ["a", "b"] ∧
      ∀ p ∈ ob, dictGet [("b", (2 : ℚ)), ("a", 1), ("c", 3)] p.1 =
        some p.2) := by
  refine ⟨by decide, by decide, ?_⟩
  exact dmeStep_spec ["a", "b"] ⟨[("b", 2), ("a", 1), ("c", 3)], 5, true⟩
    (by decide) (by decide)

theorem appendCopies_eq (N : ℕ) (b : List α) (f : α) (hb : b.length ≤ N) :
    ∀ k, k ≤ N →
    appendCopies N b f k = b.drop (b.length + k - N) ++ List.replicate k f := by
  intro k
  induction k with
  | zero =>
    intro hk
    have h0 : b.length - N = 0 := by omega
    simp [appendCopies, h0]
  | succ k ih =>
    intro hk
    rw [appendCopies, ih (by omega)]
    by_cases hcase : b.length + k < N
    · have h0 : b.length + k - N = 0 := by omega
      have h1 : b.length + (k + 1) - N = 0 := by omega
      rw [h0, h1]
      simp only [List.drop_zero]
      rw [dequeAppend]
      have h2 : (b ++ List.replicate k f).length + 1 - N = 0 := by
        simp only [List.length_append, List.length_replicate]
        omega
      rw [h2]
      simp [List.replicate_succ']
    · have hlen : (List.drop (b.length + k - N) b ++
          List.replicate k f).length = N := by
        simp only [List.length_append, List.length_drop,
          List.length_replicate]
        omega
      rw [dequeAppend]
      have h2 : (List.drop (b.length + k - N) b ++
          List.replicate k f).length + 1 - N = 1 := by
        rw [hlen]
        omega
      rw [h2, List.drop_append_eq_append_drop]
      have h3 : 1 - (List.drop (b.length + k - N) b ++
          List.replicate k f).length = 0 := by
        rw [hlen]
        omega
      rw [h3, List.drop_zero, List.drop_append_eq_append_drop,
        List.drop_drop]
      have h4 : 1 - (List.drop (b.length + k - N) b).length = 0 := by
        simp only [List.length_drop]
        omega
      rw [h4, List.drop_zero]
      have h5 : b.length + k - N + 1 = b.length + (k + 1) - N := by omega
      rw [h5, List.replicate_succ']
      simp

/-- The `reset` call seeds the buffer with `N` copies of the single initial frame,
evicting everything previously buffered. -/
theorem fsReset_replicate (N : ℕ) (b : List NpArray3) (raw : ObsImage)
    (hb : b.length ≤ N) :
    fsReset N b raw = List.replicate N (extractImage raw) := by
  rw [fsReset, appendCopies_eq N b (extractImage raw) hb N (le_refl N)]
  have h0 : b.length + N - N = b.length := by omega
  rw [h0]
  simp

theorem concatList_replicate_d0 (f : NpArray3) (n : ℕ) :
    (concatList (List.replicate n f)).d0 = n * f.d0 := by
  induction n with
  | zero => simp [concatList]
  | succ n ih =>
    rw [List.replicate_succ]
    show (concat2 f (concatList (List.replicate n f))).d0 = _
    rw [concat2, ih]
    ring

theorem concatList_replicate_val (f : NpArray3) :
    ∀ n m, m < n → ∀ c h w, c < f.d0 →
    (concatList (List.replicate n f)).val (m * f.d0 + c) h w =
      f.val c h w := by
  intro n
  induction n with
  | zero => intro m hm; omega
  | succ n ih =>
    intro m hm c h w hc
    rw [List.replicate_succ]
    show (concat2 f (concatList (List.replicate n f))).val
      (m * f.d0 + c) h w = _
    cases m with
    | zero =>
      have h0 : 0 * f.d0 + c = c := by ring
      rw [h0]
      simp [concat2, hc]
    | succ m =>
      have hidx : (m + 1) * f.d0 + c = f.d0 + (m * f.d0 + c) := by ring
      rw [hidx]
      have hnlt : ¬ (f.d0 + (m * f.d0 + c) < f.d0) := by omega
      simp only [concat2, hnlt, if_false]
      have hsub : f.d0 + (m * f.d0 + c) - f.d0 = m * f.d0 + c := by omega
      rw [hsub]
      exact ih m (by omega) c h w hc

/-- C4: immediately after `FrameStackWrapper.reset`, the buffer holds `N`
copies of the channel-first post-reset frame, the stacked image's channel
count is `N` times the native channel count, and each of the `N` channel
slices of the stacked image equals that single frame. -/
theorem frameStack_reset (N : ℕ) (b : List NpArray3) (raw : ObsImage)
    (hN : 1 ≤ N) (hb : b.length ≤ N) :
    fsReset N b raw = List.replicate N (extractImage raw) ∧
    (concatList (fsReset N b raw)).d0 = N * (stripBatch raw).d2 ∧
    ∀ m, m < N →
      aeq (chanSlice (concatList (fsReset N b raw))
            (m * (stripBatch raw).d2) ((stripBatch raw).d2))
        (extractImage raw) := by
  have hbuf := fsReset_replicate N b raw hb
  refine ⟨hbuf, ?_, ?_⟩
  · rw [hbuf, concatList_replicate_d0]
    rfl
  · intro m hm
    rw [hbuf]
    obtain ⟨n, rfl⟩ : ∃ n, N = n + 1 := ⟨N - 1, by omega⟩
    refine ⟨rfl, rfl, rfl, ?_⟩
    intro c h w hc hh hw
    exact concatList_replicate_val (extractImage raw) (n + 1) m hm c h w hc

/-- Concrete single-pixel 3-dimensional image used by witnesses. -/
def rawA : ObsImage := .arr3 ⟨1, 1, 1, fun _ _ _ => 3⟩

/-- A second concrete image, distinct pixel value. -/
def rawB : ObsImage := .arr3 ⟨1, 1, 1, fun _ _ _ => 5⟩

/-- C4 witness: stack depth 2, fresh buffer, concrete image. -/
theorem frameStack_reset_w :
    fsReset 2 [] rawA = List.replicate 2 (extractImage rawA) ∧
    (concatList (fsReset 2 [] rawA)).d0 = 2 * (stripBatch rawA).d2 ∧
    ∀ m, m < 2 →
      aeq (chanSlice (concatList (fsReset 2 [] rawA))
            (m * (stripBatch rawA).d2) ((stripBatch rawA).d2))
        (extractImage rawA) :=
  frameStack_reset 2 [] rawA (by norm_num) (by simp)

/-- C5: after a reset and `M < N` steps, the buffer — and hence the
stacked image, concatenated oldest-to-newest — consists of `N − M` copies
of the initial frame followed by the `M` pushed frames in order. -/
theorem frameStack_sliding (N : ℕ) (b : List NpArray3) (raw0 : ObsImage)
    (raws : List ObsImage) (hN : 1 ≤ N) (hb : b.length ≤ N)
    (hM : raws.length < N) :
    fsSteps N (fsReset N b raw0) raws =
      List.replicate (N - raws.length) (extractImage raw0) ++
        List.map extractImage raws ∧
    concatList (fsSteps N (fsReset N b raw0) raws) =
      concatList (List.replicate (N - raws.length) (extractImage raw0) ++
        List.map extractImage raws) := by
  have key : ∀ rs : List ObsImage, rs.length < N →
      fsSteps N (fsReset N b raw0) rs =
        List.replicate (N - rs.length) (extractImage raw0) ++
          List.map extractImage rs := by
    intro rs
    induction rs using List.reverseRecOn with
    | nil =>
      intro h
      simpa [fsSteps] using fsReset_replicate N b raw0 hb
    | append_singleton rs r ih =>
      intro h
      have hlen1 : (rs ++ [r]).length = rs.length + 1 := by simp
      have hrs : rs.length < N := by omega
      rw [fsSteps, List.foldl_append]
      have hmid : List.foldl (fun acc raw => fsStep N acc raw)
          (fsReset N b raw0) rs =
          List.replicate (N - rs.length) (extractImage raw0) ++
            List.map extractImage rs := ih hrs
      rw [hmid]
      simp only [List.foldl_cons, List.foldl_nil]
      rw [fsStep, dequeAppend]
      have hplen : (List.replicate (N - rs.length) (extractImage raw0) ++
          List.map extractImage rs).length = N := by
        simp only [List.length_append, List.length_replicate,
          List.length_map]
        omega
      have h1 : (List.replicate (N - rs.length) (extractImage raw0) ++
          List.map extractImage rs).length + 1 - N = 1 := by
        rw [hplen]
        omega
      rw [h1, List.drop_append_eq_append_drop]
      have h2 : 1 - (List.replicate (N - rs.length) (extractImage raw0) ++
          List.map extractImage rs).length = 0 := by
        rw [hplen]
        omega
      rw [h2, List.drop_zero, List.drop_append_eq_append_drop,
        List.drop_replicate]
      have h3 : 1 - (List.replicate (N - rs.length)
          (extractImage raw0)).length = 0 := by
        simp only [List.length_replicate]
        omega
      rw [h3, List.drop_zero]
      have h4 : N - rs.length - 1 = N - (rs.length + 1) := by omega
      rw [h4]
      simp [hlen1]
  exact ⟨key raws hM, by rw [key raws hM]⟩

/-- C5 witness: depth 2, one step after reset: one copy of the initial
frame followed by the pushed frame. -/
theorem frameStack_sliding_w :
    fsSteps 2 (fsReset 2 [] rawA) [rawB] =
      List.replicate (2 - [rawB].length) (extractImage rawA) ++
        List.map extractImage [rawB] ∧
    concatList (fsSteps 2 (fsReset 2 [] rawA) [rawB]) =
      concatList (List.replicate (2 - [rawB].length) (extractImage rawA) ++
        List.map extractImage [rawB]) :=
  frameStack_sliding 2 [] rawA [rawB] (by norm_num) (by simp) (by simp)

/-- C7 counterexample: `ObsDTypeWrapper._transform_observation` mutates
the mapping obtained from the wrapped environment — after the call, the
mapping at the input Step's reference is no longer its old value. -/
theorem transform_mutates_input_cex :
    (obsDTypeTransform (fun _ => [("x", ⟨PyDType.float64, 7⟩)])
        ⟨StepType.MID, none, none, 0⟩).1 0 ≠
      [("x", ⟨PyDType.float64, 7⟩)] := by
  decide

/-- C7 (amended): both transforms return a Step holding the same
observation mapping reference as the input (no new mapping is created);
that mapping is updated in place — every entry is replaced by its cast
value (resp. the stacked image for the image entry) — and mappings at all
other references are untouched. -/
theorem transform_in_place (imageKey : Option String) (stacked : PyArray)
    (store : ObsStore) (ts : HStep) :
    ((obsDTypeTransform store ts).2 = ts ∧
     (obsDTypeTransform store ts).1 ts.obsRef =
       (store ts.obsRef).map (fun kv => (kv.1, astypeF32 kv.2)) ∧
     ∀ r, r ≠ ts.obsRef → (obsDTypeTransform store ts).1 r = store r) ∧
    ((fsTransformObs imageKey stacked store ts).2 = ts ∧
     (fsTransformObs imageKey stacked store ts).1 ts.obsRef =
       (store ts.obsRef).map (fun kv =>
         if some kv.1 = imageKey then (kv.1, stacked)
         else (kv.1, astypeF32 kv.2)) ∧
     ∀ r, r ≠ ts.obsRef →
       (fsTransformObs imageKey stacked store ts).1 r = store r) := by
  refine ⟨⟨rfl, ?_, ?_⟩, rfl, ?_, ?_⟩
  · show (if ts.obsRef = ts.obsRef then _ else _) = _
    rw [if_pos rfl]
  · intro r hr
    show (if r = ts.obsRef then _ else _) = _
    rw [if_neg hr]
  · show (if ts.obsRef = ts.obsRef then _ else _) = _
    rw [if_pos rfl]
  · intro r hr
    show (if r = ts.obsRef then _ else _) = _
    rw [if_neg hr]

/-- A concrete observation store for the C7 witness. -/
def storeW : ObsStore :=
  fun _ => [("img", ⟨PyDType.uint8, 3⟩), ("x", ⟨PyDType.float64, 7⟩)]

/-- A concrete input step for the C7 witness. -/
def tsW : HStep := ⟨StepType.MID, none, none, 0⟩

/-- C7 witness: the amended statement at a concrete store and step,
including the untouched-other-reference clause at reference 1. -/
theorem transform_in_place_w :
    (obsDTypeTransform storeW tsW).2 = tsW ∧
    (obsDTypeTransform storeW tsW).1 tsW.obsRef =
      (storeW tsW.obsRef).map (fun kv => (kv.1, astypeF32 kv.2)) ∧
    ((1 : ℕ) ≠ tsW.obsRef ∧ (obsDTypeTransform storeW tsW).1 1 = storeW 1) ∧
    (fsTransformObs (some ("img")) ⟨PyDType.uint8, 9⟩ storeW tsW).2 = tsW ∧
    (fsTransformObs (some ("img")) ⟨PyDType.uint8, 9⟩ storeW tsW).1 1 =
      storeW 1 := by
  refine ⟨(transform_in_place (some ("img")) ⟨PyDType.uint8, 9⟩
      storeW tsW).1.1,
    (transform_in_place (some ("img")) ⟨PyDType.uint8, 9⟩ storeW tsW).1.2.1,
    ⟨by decide, (transform_in_place (some ("img")) ⟨PyDType.uint8, 9⟩
      storeW tsW).1.2.2 1 (by decide)⟩,
    (transform_in_place (some ("img")) ⟨PyDType.uint8, 9⟩ storeW tsW).2.1,
    (transform_in_place (some ("img")) ⟨PyDType.uint8, 9⟩
      storeW tsW).2.2.2 1 (by decide)⟩

theorem mem_dequeAppend (N : ℕ) (b : List α) (f x : α)
    (hx : x ∈ dequeAppend N b f) : x ∈ b ∨ x = f := by
  have h := List.drop_subset _ _ hx
  rcases List.mem_append.mp h with h2 | h2
  · exact Or.inl h2
  · simp only [List.mem_singleton] at h2
    exact Or.inr h2

theorem mem_appendCopies (N : ℕ) (f : α) :
    ∀ k (b : List α) x, x ∈ appendCopies N b f k → x ∈ b ∨ x = f := by
  intro k
  induction k with
  | zero => intro b x hx; exact Or.inl hx
  | succ k ih =>
    intro b x hx
    rcases mem_dequeAppend N _ f x hx with h | h
    · exact ih b x h
    · exact Or.inr h

/-- Every reference ever pushed into the frame buffer was freshly
allocated at or after `base`, provided the starting buffer already
satisfied that bound. -/
theorem fsRunHeap_inv (N : ℕ) :
    ∀ (ops : List FSOp) (h : AHeap) (fs : List ℕ) (base : ℕ),
    base ≤ h.next →
    (∀ r ∈ fs, base ≤ r) →
    base ≤ (fsRunHeap N (h, fs) ops).1.next ∧
    ∀ r ∈ (fsRunHeap N (h, fs) ops).2, base ≤ r := by
  intro ops
  induction ops with
  | nil =>
    intro h fs base hbase hfs
    exact ⟨hbase, hfs⟩
  | cons op ops ih =>
    intro h fs base hbase hfs
    rw [fsRunHeap]
    cases op with
    | reset r =>
      apply ih
      · show base ≤ h.next + 1
        omega
      · intro x hx
        rcases mem_appendCopies N h.next N fs x hx with h2 | h2
        · exact hfs x h2
        · omega
    | step r =>
      apply ih
      · show base ≤ h.next + 1
        omega
      · intro x hx
        rcases mem_dequeAppend N fs h.next x hx with h2 | h2
        · exact hfs x h2
        · omega

/-- C10: starting from a fresh wrapper (empty buffer) over an environment
whose observation arrays live at references below the initial allocation
bound, every reference in the frame buffer differs from every image
reference the environment ever returned, and in-place writes to any
pre-existing environment buffer leave the contents of every buffered
frame unchanged. -/
theorem frameStack_frames_fresh (N : ℕ) (ops : List FSOp) (h0 : AHeap)
    (henv : ∀ op ∈ ops, FSOp.imgRef op < h0.next) :
    (∀ r ∈ (fsRunHeap N (h0, []) ops).2, ∀ op ∈ ops, r ≠ FSOp.imgRef op) ∧
    (∀ e v r, e < h0.next → r ∈ (fsRunHeap N (h0, []) ops).2 →
      (memWrite (fsRunHeap N (h0, []) ops).1 e v).mem r =
        (fsRunHeap N (h0, []) ops).1.mem r) := by
  have hinv := fsRunHeap_inv N ops h0 [] h0.next (le_refl _) (by simp)
  constructor
  · intro r hr op hop
    have h1 := hinv.2 r hr
    have h2 := henv op hop
    omega
  · intro e v r he hr
    have h1 := hinv.2 r hr
    show (if r = e then v else (fsRunHeap N (h0, []) ops).1.mem r) = _
    rw [if_neg (by omega : ¬ r = e)]

/-- A concrete two-element heap for the C10 witness: the environment owns
reference 0, allocation starts at 1. -/
def h0w : AHeap := ⟨1, fun _ => .arr3 ⟨1, 1, 1, fun _ _ _ => 0⟩⟩

/-- C10 witness: a reset followed by a step, both returning the
environment-owned image reference 0, over `h0w`. -/
theorem frameStack_frames_fresh_w :
    (∀ op ∈ [FSOp.reset 0, FSOp.step 0], FSOp.imgRef op < h0w.next) ∧
    ((∀ r ∈ (fsRunHeap 2 (h0w, []) [FSOp.reset 0, FSOp.step 0]).2,
        ∀ op ∈ [FSOp.reset 0, FSOp.step 0], r ≠ FSOp.imgRef op) ∧
     (∀ e v r, e < h0w.next →
        r ∈ (fsRunHeap 2 (h0w, []) [FSOp.reset 0, FSOp.step 0]).2 →
        (memWrite (fsRunHeap 2 (h0w, []) [FSOp.reset 0, FSOp.step 0]).1
            e v).mem r =
          (fsRunHeap 2 (h0w, []) [FSOp.reset 0, FSOp.step 0]).1.mem r)) :=
  ⟨by decide, frameStack_frames_fresh 2 [FSOp.reset 0, FSOp.step 0] h0w
    (by decide)⟩

end RobosuiteEnv
